import Mathlib

/-!
Verification of the real-time audio signal path of `g2` (src/src/main.rs).

Samples (Rust `f32`) are modelled as rationals `ℚ` for the queue, delay and
distortion components, and as reals `ℝ` for the flange component (whose
offset law involves the cosine).  The hand-off queue is the `ringbuf`
single-producer/single-consumer ring used in `main`, modelled as a list
(front = oldest) with an explicit capacity.  A Rust panic (`expect`,
index out of bounds, `usize` underflow) is modelled as `Except.error`
carrying the panic message.
-/

deriving instance DecidableEq for Except

/-- `ringbuf` `Producer::push`: appends if capacity remains, otherwise
reports failure (`Result::Err` in Rust); it never blocks. -/
def tryPush (cap : ℕ) (q : List ℚ) (x : ℚ) : Option (List ℚ) :=
  if q.length < cap then some (q ++ [x]) else none

/-- `ringbuf` `Consumer::pop`: removes and returns the oldest sample if any. -/
def tryPop (q : List ℚ) : Option (ℚ × List ℚ) :=
  match q with
  | [] => none
  | x :: rest => some (x, rest)

/-- `input_data_fn` (main.rs lines 267–273): pushes every captured sample in
order; a failed push hits `.expect("Unable to refill output buffer")`,
i.e. a panic, modelled as `Except.error`. -/
def inputDataFn (cap : ℕ) : List ℚ → List ℚ → Except String (List ℚ)
  | q, [] => .ok q
  | q, x :: xs =>
    match tryPush cap q x with
    | some q' => inputDataFn cap q' xs
    | none => .error "Unable to refill output buffer"

/-- `output_data_fn` (main.rs lines 275–282), generic in the active filter:
for each of the `k` requested slots, pop one sample; if one is available run
it through the filter (a panic inside the filter propagates), otherwise
write silence `0.0` without touching the filter.  Returns the final filter
state, the remaining queue and the `k` written samples. -/
def outputDataFn {σ : Type} (step : σ → ℚ → Except String (σ × ℚ)) :
    ℕ → σ → List ℚ → Except String (σ × List ℚ × List ℚ)
  | 0, st, q => .ok (st, q, [])
  | k + 1, st, q =>
    match tryPop q with
    | none =>
      match outputDataFn step k st q with
      | .ok (st', q', out) => .ok (st', q', 0 :: out)
      | .error e => .error e
    | some (s, rest) =>
      match step st s with
      | .error e => .error e
      | .ok (st', y) =>
        match outputDataFn step k st' rest with
        | .ok (st'', q'', out) => .ok (st'', q'', y :: out)
        | .error e => .error e

/-- Running the filter over a whole list of samples (no underrun slots):
the reference for what the playback adapter does on the available samples. -/
def runFilter {σ : Type} (step : σ → ℚ → Except String (σ × ℚ)) :
    σ → List ℚ → Except String (σ × List ℚ)
  | st, [] => .ok (st, [])
  | st, x :: xs =>
    match step st x with
    | .error e => .error e
    | .ok (st', y) =>
      match runFilter step st' xs with
      | .ok (st'', ys) => .ok (st'', y :: ys)
      | .error e => .error e

/-- `DelayFilter` (main.rs lines 93–98): the producer/consumer pair over the
internal `RingBuffer::new(delay_frames)` is modelled as the ring's capacity
together with its current contents (front = oldest). -/
structure DelayFilter where
  capacity : ℕ
  decay : ℚ
  queue : List ℚ
  deriving DecidableEq, Repr

/-- `DelayFilter::new` (lines 102–115): builds a ring of capacity
`delay_frames` and fills it with zeros until full.  Construction always
succeeds: nothing is rejected. -/
def DelayFilter.new (delay_frames : ℕ) (decay : ℚ) : DelayFilter :=
  ⟨delay_frames, decay, List.replicate delay_frames 0⟩

/-- `DelayFilter::filter` (lines 117–125): pop the oldest sample
(`.expect("Delay buffer empty?")`), add it scaled by the decay, push the
result back (`.expect("Unable to refill delay buffer?")`). -/
def DelayFilter.filter (f : DelayFilter) (sample : ℚ) :
    Except String (DelayFilter × ℚ) :=
  match f.queue with
  | [] => .error "Delay buffer empty?"
  | last :: rest =>
    let result := sample + last * f.decay
    if rest.length < f.capacity then
      .ok (⟨f.capacity, f.decay, rest ++ [result]⟩, result)
    else
      .error "Unable to refill delay buffer?"

/-- Pure reference run of the delay filter: same pop/compute/push loop as
`DelayFilter::filter`, on a ring that is never empty.  Proved equal to the
`Except`-valued run under the occupancy invariant. -/
def delayRun (g : ℚ) : List ℚ → List ℚ → List ℚ
  | _, [] => []
  | q, x :: xs =>
    match q with
    | [] => []
    | h :: rest => (x + h * g) :: delayRun g (rest ++ [x + h * g]) xs

/-- `DistortFilter` (main.rs lines 214–219). -/
structure DistortFilter where
  gain : ℚ
  saturation : ℚ
  deriving DecidableEq, Repr

/-- `DistortFilter::new` (lines 223–225). -/
def DistortFilter.new (gain saturation : ℚ) : DistortFilter :=
  ⟨gain, saturation⟩

/-- Rust `f32::clamp(self, min, max)`: `min` if below, `max` if above,
otherwise the value itself; panics when `min > max` (or a bound is NaN,
which has no rational counterpart). -/
def f32Clamp (x lo hi : ℚ) : Except String ℚ :=
  if lo ≤ hi then
    .ok (if x < lo then lo else if x > hi then hi else x)
  else
    .error "min > max, or either was NaN"

/-- `DistortFilter::filter` (lines 227–229):
`(sample * self.gain).clamp(-self.saturation, self.saturation)`. -/
def DistortFilter.filter (f : DistortFilter) (sample : ℚ) : Except String ℚ :=
  f32Clamp (sample * f.gain) (-f.saturation) f.saturation

/-- The distortion filter as a step for the playback adapter: `filter` takes
`&self`, so the state is returned unchanged. -/
def distortStep (f : DistortFilter) (s : ℚ) :
    Except String (DistortFilter × ℚ) :=
  match f.filter s with
  | .ok y => .ok (f, y)
  | .error e => .error e

/-- `self.buffer[offset]`: out-of-range indexing is a Rust panic. -/
def listIndex {α : Type} (l : List α) (i : ℕ) : Except String α :=
  match l.get? i with
  | some x => .ok x
  | none => .error "index out of bounds"

/-- `FlangeFilter::read_buffer` (main.rs lines 172–180): reads
`reverse_offset` slots behind the write cursor.  The else branch computes
`self.buffer.len() - reverse_offset + self.read_offset`; when
`reverse_offset > buffer.len()` the first (usize) subtraction underflows,
a panic. -/
def FlangeFilter.read_buffer (buffer : List ℝ) (read_offset reverse_offset : ℕ) :
    Except String ℝ :=
  if reverse_offset ≤ read_offset then
    listIndex buffer (read_offset - reverse_offset)
  else if reverse_offset ≤ buffer.length then
    listIndex buffer (buffer.length - reverse_offset + read_offset)
  else
    .error "attempt to subtract with overflow"

/-- `FlangeFilter::offset` (main.rs lines 190–195):
`((t * offset_coefficient).cos() + 1.0) * amplitude + 1.0` cast `as usize`
(truncation toward zero, saturating at `0` for negative values). -/
noncomputable def FlangeFilter.offset (amplitude offset_coefficient t : ℝ) : ℕ :=
  (⌊(Real.cos (t * offset_coefficient) + 1) * amplitude + 1⌋).toNat

/-- The end-to-end pipeline of the spec's concrete scenario: push the
captured block through `input_data_fn` into a queue of capacity `cap`, then
pull `k` playback samples through `output_data_fn` with a fresh
`DelayFilter` of length `d` and decay `g`. -/
def endToEnd (cap : ℕ) (input : List ℚ) (d : ℕ) (g : ℚ) (k : ℕ) :
    Except String (List ℚ) :=
  match inputDataFn cap [] input with
  | .error e => .error e
  | .ok q =>
    match outputDataFn DelayFilter.filter k (DelayFilter.new d g) q with
    | .error e => .error e
    | .ok (_, _, out) => .ok out

/-! ### Helper lemmas -/

theorem listIndex_ok {α : Type} (l : List α) (i : ℕ) (h : i < l.length) :
    ∃ v, listIndex l i = .ok v := by
  refine ⟨l[i], ?_⟩
  simp [listIndex, List.getElem?_eq_getElem h]

theorem outputDataFn_nil {σ : Type} (step : σ → ℚ → Except String (σ × ℚ))
    (k : ℕ) (st : σ) :
    outputDataFn step k st [] = .ok (st, [], List.replicate k 0) := by
  induction k with
  | zero => simp [outputDataFn]
  | succ k ih => simp [outputDataFn, tryPop, ih, List.replicate_succ]

theorem getD_replicate_zero (d n : ℕ) :
    (List.replicate d (0 : ℚ)).getD n 0 = 0 := by
  induction d generalizing n with
  | zero => simp
  | succ d ih =>
    cases n with
    | zero => simp [List.replicate_succ]
    | succ n => simp [List.replicate_succ, ih]

/-! ### C1 (code defect): the capture adapter panics on a saturated queue -/

/-- C1: the claim says a `try_push` against a full queue drops the newest
sample and the capture adapter never fails on a saturated queue.  The code
instead calls `.expect("Unable to refill output buffer")` on the failed
push, i.e. it panics: with capacity `N = 1`, the first captured sample is
retained but pushing a second one aborts the callback. -/
theorem capture_overflow_panics :
    inputDataFn 1 [] [1] = .ok [1] ∧
    inputDataFn 1 [] [1, 2] = .error "Unable to refill output buffer" := by
  constructor <;> simp [inputDataFn, tryPush]

/-! ### C8 (code defect): invalid configuration is not rejected at
construction; a zero-length delay panics at the first per-sample call -/

/-- C8: the claim says a zero-length delay buffer is rejected by
`DelayFilter::new` with a descriptive failure before streaming begins, and
that no per-sample filter call ever panics.  In the code `new` cannot fail
(it returns a bare `DelayFilter`): `DelayFilter::new(0, 0.5)` succeeds with
an empty ring, and the very first `filter` call then panics via
`.expect("Delay buffer empty?")`. -/
theorem delay_zero_length_accepted :
    DelayFilter.new 0 (1/2) = ⟨0, 1/2, []⟩ ∧
    (DelayFilter.new 0 (1/2)).filter 1 = .error "Delay buffer empty?" := by
  constructor
  · rfl
  · rfl

/-! ### C2: underrun writes silence without touching the filter -/

/-- C2: when the playback adapter is asked for `k` slots and only the
`q.length ≤ k` queued samples are available, it writes the filtered samples
followed by exactly one zero per empty slot — `k` samples in total — and
the final filter state is exactly the state reached by filtering the real
samples alone, so the empty slots never advance the filter and a subsequent
real sample behaves as if no underrun had occurred. -/
theorem underrun_writes_silence {σ : Type} (step : σ → ℚ → Except String (σ × ℚ))
    (k : ℕ) (st st' : σ) (q ys : List ℚ) (hk : q.length ≤ k)
    (hrun : runFilter step st q = .ok (st', ys)) :
    outputDataFn step k st q = .ok (st', [], ys ++ List.replicate (k - q.length) 0) ∧
    (ys ++ List.replicate (k - q.length) 0).length = k := by
  induction q generalizing k st ys with
  | nil =>
    simp only [runFilter, Except.ok.injEq, Prod.mk.injEq] at hrun
    obtain ⟨rfl, rfl⟩ := hrun
    simpa using outputDataFn_nil step k st
  | cons x rest ih =>
    cases k with
    | zero => simp at hk
    | succ k =>
      have hk' : rest.length ≤ k := by simpa using hk
      cases hstep : step st x with
      | error e => simp only [runFilter, hstep] at hrun; cases hrun
      | ok p =>
        obtain ⟨st1, y⟩ := p
        cases hrest : runFilter step st1 rest with
        | error e => simp only [runFilter, hstep, hrest] at hrun; cases hrun
        | ok p' =>
          obtain ⟨st2, ys'⟩ := p'
          simp only [runFilter, hstep, hrest, Except.ok.injEq, Prod.mk.injEq] at hrun
          obtain ⟨rfl, rfl⟩ := hrun
          obtain ⟨h1, h2⟩ := ih k st1 ys' hk' hrest
          constructor
          · simp [outputDataFn, tryPop, hstep, h1]
          · simp only [List.length_append, List.length_cons,
              List.length_replicate] at h2 ⊢
            omega

/-- Witness for `underrun_writes_silence`: the distortion filter of `main`,
one real sample `0` in the queue, two requested slots. -/
theorem underrun_writes_silence_witness :
    outputDataFn distortStep 2 (DistortFilter.new 12 (7/10)) [0] =
      .ok (DistortFilter.new 12 (7/10), [], [0] ++ List.replicate (2 - List.length [(0:ℚ)]) 0) ∧
    (([0] ++ List.replicate (2 - List.length [(0:ℚ)]) (0:ℚ)).length = 2) :=
  underrun_writes_silence distortStep 2 (DistortFilter.new 12 (7/10))
    (DistortFilter.new 12 (7/10)) [0] [0] (by norm_num)
    (by norm_num [runFilter, distortStep, DistortFilter.filter, DistortFilter.new, f32Clamp])

/-! ### C9: the delay ring's occupancy invariant makes its panics unreachable -/

/-- C9: `DelayFilter::new` pre-fills the ring with exactly `delay_frames`
zeros, and for `delay_frames ≥ 1` every `filter` call on a state satisfying
the occupancy invariant (ring holds exactly `delay_frames` samples) pops one
sample, pushes one, succeeds — both `expect` branches unreachable — and
re-establishes the invariant. -/
theorem delay_occupancy_invariant (d : ℕ) (g : ℚ) (hd : 1 ≤ d) :
    (DelayFilter.new d g).queue = List.replicate d 0 ∧
    (DelayFilter.new d g).queue.length = d ∧
    ∀ (f : DelayFilter) (x : ℚ), f.capacity = d → f.queue.length = d →
      ∃ (f' : DelayFilter) (y : ℚ),
        f.filter x = .ok (f', y) ∧ f'.capacity = d ∧ f'.queue.length = d := by
  refine ⟨rfl, by simp [DelayFilter.new], ?_⟩
  intro f x hcap hlen
  match hq : f.queue with
  | [] => rw [hq] at hlen; simp at hlen; omega
  | last :: rest =>
    rw [hq] at hlen
    simp only [List.length_cons] at hlen
    have hrest : rest.length < f.capacity := by omega
    refine ⟨⟨f.capacity, f.decay, rest ++ [x + last * f.decay]⟩, x + last * f.decay,
      ?_, hcap, ?_⟩
    · simp [DelayFilter.filter, hq, hrest]
    · simp only [List.length_append, List.length_cons, List.length_nil]
      omega

/-- Witness for `delay_occupancy_invariant`: a length-3 delay filter holding
three samples accepts one more without hitting either `expect`. -/
theorem delay_occupancy_invariant_witness :
    ∃ (f' : DelayFilter) (y : ℚ),
      (DelayFilter.mk 3 (1/2) [0, 0, 0]).filter 1 = .ok (f', y) ∧
      f'.capacity = 3 ∧ f'.queue.length = 3 :=
  (delay_occupancy_invariant 3 (1/2) (by norm_num)).2.2 ⟨3, 1/2, [0, 0, 0]⟩ 1 rfl rfl

/-! ### C4: the impulse reappears, but the dry impulse is already in the
first output -/

/-- C4 counterexample: the claimed end-to-end scenario — capture samples
`[1,0,0,0,0]`, Delay filter of length `3` and decay `1/2`, queue capacity
`5` — produces `[1, 0, 0, 1/2, 0]`, not the claimed `[0, 0, 0, 1/2, 0]`:
`y = x + h·g` passes the dry impulse straight through at index `0`. -/
theorem delay_end_to_end_cex :
    endToEnd 5 [1,0,0,0,0] 3 (1/2) 5 = .ok [1, 0, 0, 1/2, 0] ∧
    endToEnd 5 [1,0,0,0,0] 3 (1/2) 5 ≠ .ok [0, 0, 0, 1/2, 0] := by
  have h : endToEnd 5 [1,0,0,0,0] 3 (1/2) 5 = .ok [1, 0, 0, 1/2, 0] := by
    norm_num [endToEnd, inputDataFn, tryPush, tryPop, outputDataFn,
      DelayFilter.new, DelayFilter.filter, List.replicate_succ]
  refine ⟨h, ?_⟩
  rw [h]
  intro hc
  simp only [Except.ok.injEq, List.cons.injEq] at hc
  exact one_ne_zero hc.1

/-! ### C7: hard clip after linear gain -/

/-- C7: for any saturation bound `s ≥ 0`, the distortion filter outputs
`clamp(x·gain, -s, +s)`: the product passes through unchanged when its
magnitude is at most `s`, and is replaced by exactly `±s` (sign preserved)
when it exceeds the bound; `filter` takes `&self`, carrying no state. -/
theorem distort_clamp_law (gain s x : ℚ) (hs : 0 ≤ s) :
    (|x * gain| ≤ s → (DistortFilter.new gain s).filter x = .ok (x * gain)) ∧
    (s < x * gain → (DistortFilter.new gain s).filter x = .ok s) ∧
    (x * gain < -s → (DistortFilter.new gain s).filter x = .ok (-s)) := by
  have hls : -s ≤ s := by linarith
  refine ⟨?_, ?_, ?_⟩
  · intro h
    rw [abs_le] at h
    simp [DistortFilter.filter, DistortFilter.new, f32Clamp, hls,
      not_lt.mpr h.1, not_lt.mpr h.2]
  · intro h
    simp [DistortFilter.filter, DistortFilter.new, f32Clamp, hls, h,
      not_lt.mpr (le_trans hls (le_of_lt h))]
  · intro h
    simp [DistortFilter.filter, DistortFilter.new, f32Clamp, hls, h]

/-- Witness for `distort_clamp_law` at the configuration of `main`
(`gain = 12`, `saturation = 0.7`) and input `1`. -/
theorem distort_clamp_law_witness :
    (|(1:ℚ) * 12| ≤ 7/10 → (DistortFilter.new 12 (7/10)).filter 1 = .ok (1 * 12)) ∧
    ((7:ℚ)/10 < 1 * 12 → (DistortFilter.new 12 (7/10)).filter 1 = .ok (7/10)) ∧
    ((1:ℚ) * 12 < -(7/10) → (DistortFilter.new 12 (7/10)).filter 1 = .ok (-(7/10))) :=
  distort_clamp_law 12 (7/10) 1 (by norm_num)

/-! ### The delay line's lag-`D` recurrence -/

theorem delayRun_getD (g : ℚ) (q xs : List ℚ) (n : ℕ) (hq : q ≠ [])
    (hn : n < xs.length) :
    (delayRun g q xs).getD n 0 =
      xs.getD n 0 + (q ++ delayRun g q xs).getD n 0 * g := by
  induction xs generalizing q n with
  | nil => simp at hn
  | cons x xs ih =>
    match q with
    | [] => exact absurd rfl hq
    | h :: rest =>
      cases n with
      | zero =>
        simp [delayRun, List.getD_cons_zero, List.cons_append]
      | succ m =>
        have hm : m < xs.length := by simpa using hn
        have hrec := ih (rest ++ [x + h * g]) m (by simp) hm
        simp only [delayRun, List.getD_cons_succ, List.cons_append]
        rw [hrec, List.append_assoc, List.singleton_append]

theorem runFilter_delay (g : ℚ) (cap : ℕ) (q xs : List ℚ)
    (hcap : 1 ≤ cap) (hlen : q.length = cap) :
    ∃ f' : DelayFilter,
      runFilter DelayFilter.filter ⟨cap, g, q⟩ xs = .ok (f', delayRun g q xs) := by
  induction xs generalizing q with
  | nil => exact ⟨⟨cap, g, q⟩, by simp [runFilter, delayRun]⟩
  | cons x xs ih =>
    match q with
    | [] =>
      rw [← hlen] at hcap
      simp at hcap
    | h :: rest =>
      have hrest : rest.length < cap := by
        simp only [List.length_cons] at hlen; omega
      have hlen' : (rest ++ [x + h * g]).length = cap := by
        simp only [List.length_cons] at hlen
        simp only [List.length_append, List.length_cons, List.length_nil]
        omega
      obtain ⟨f', hf'⟩ := ih (rest ++ [x + h * g]) hlen'
      exact ⟨f', by simp [runFilter, DelayFilter.filter, delayRun, hrest, hf']⟩

/-! ### C5: the delay filter is a decaying feedback echo at lag exactly `D` -/

/-- C5: a single `filter` step on a full length-`d` ring pops the oldest
sample `h`, outputs `y = x + h·g` and pushes `y` into the vacated slot; the
run from a fresh `DelayFilter` equals the pure reference `delayRun`; and the
`n`-th output obeys the fixed-lag-`d` feedback recurrence
`out n = x n + (out (n-d) padded with the zero pre-fill) · g`. -/
theorem delay_feedback_echo (d : ℕ) (g : ℚ) (hd : 1 ≤ d) :
    (∀ (x h : ℚ) (rest : List ℚ), rest.length + 1 = d →
      DelayFilter.filter ⟨d, g, h :: rest⟩ x =
        .ok (⟨d, g, rest ++ [x + h * g]⟩, x + h * g)) ∧
    (∀ xs : List ℚ, ∃ f' : DelayFilter,
      runFilter DelayFilter.filter (DelayFilter.new d g) xs =
        .ok (f', delayRun g (List.replicate d 0) xs)) ∧
    (∀ (xs : List ℚ) (n : ℕ), n < xs.length →
      (delayRun g (List.replicate d 0) xs).getD n 0 =
        xs.getD n 0 +
          (if n < d then 0
           else (delayRun g (List.replicate d 0) xs).getD (n - d) 0) * g) := by
  have hrep : (List.replicate d (0:ℚ)).length = d := by simp
  have hne : (List.replicate d (0:ℚ)) ≠ [] := by
    intro hc
    rw [hc] at hrep
    simp at hrep
    omega
  refine ⟨?_, ?_, ?_⟩
  · intro x h rest hlen
    have : rest.length < d := by omega
    simp [DelayFilter.filter, this]
  · intro xs
    exact runFilter_delay g d (List.replicate d 0) xs hd hrep
  · intro xs n hn
    rw [delayRun_getD g (List.replicate d 0) xs n hne hn]
    congr 1
    by_cases hnd : n < d
    · rw [if_pos hnd, List.getD_append _ _ _ _ (by simpa using hnd),
        getD_replicate_zero]
    · rw [if_neg hnd, List.getD_append_right _ _ _ _ (by simpa using not_lt.mp hnd),
        hrep]

/-- Witness for `delay_feedback_echo`: length `3`, decay `1/2`; one step on
a full ring, and the recurrence at output index `3` of the impulse run. -/
theorem delay_feedback_echo_witness :
    DelayFilter.filter ⟨3, 1/2, (0:ℚ) :: [0, 0]⟩ 1 =
      .ok (⟨3, 1/2, [0, 0] ++ [1 + 0 * (1/2)]⟩, 1 + 0 * (1/2)) ∧
    (delayRun (1/2) (List.replicate 3 0) [1,0,0,0,0]).getD 3 0 =
      [1,0,0,0,0].getD 3 0 +
        (if 3 < 3 then 0
         else (delayRun (1/2) (List.replicate 3 0) [1,0,0,0,0]).getD (3 - 3) 0) * (1/2) := by
  have h := delay_feedback_echo 3 (1/2) (by norm_num)
  exact ⟨h.1 1 0 [0, 0] rfl, h.2.2 [1,0,0,0,0] 3 (by norm_num)⟩

/-! ### C4: delay impulse response is geometric — including the dry impulse -/

theorem delayRun_lag (d : ℕ) (g : ℚ) (hd : 1 ≤ d) (xs : List ℚ) (n : ℕ)
    (hn : n < xs.length) :
    (delayRun g (List.replicate d 0) xs).getD n 0 =
      xs.getD n 0 +
        (if n < d then 0
         else (delayRun g (List.replicate d 0) xs).getD (n - d) 0) * g := by
  have hrep : (List.replicate d (0:ℚ)).length = d := by simp
  have hne : (List.replicate d (0:ℚ)) ≠ [] := by
    intro hc
    rw [hc] at hrep
    simp at hrep
    omega
  rw [delayRun_getD g (List.replicate d 0) xs n hne hn]
  congr 1
  by_cases hnd : n < d
  · rw [if_pos hnd, List.getD_append _ _ _ _ (by simpa using hnd),
      getD_replicate_zero]
  · rw [if_neg hnd, List.getD_append_right _ _ _ _ (by simpa using not_lt.mp hnd),
      hrep]

theorem delayRun_impulse (d m : ℕ) (g : ℚ) (hd : 1 ≤ d) :
    ∀ n, n ≤ m →
      (delayRun g (List.replicate d 0) (1 :: List.replicate m 0)).getD n 0 =
        (if d ∣ n then g ^ (n / d) else 0) := by
  intro n
  induction n using Nat.strong_induction_on with
  | _ n ih =>
    intro hn
    have hlen : n < (1 :: List.replicate m (0:ℚ)).length := by simp; omega
    rw [delayRun_lag d g hd _ n hlen]
    rcases Nat.eq_zero_or_pos n with rfl | hpos
    · simp [show 0 < d by omega, dvd_zero]
    · have hx : ((1:ℚ) :: List.replicate m 0).getD n 0 = 0 := by
        match n, hpos with
        | n + 1, _ => simp [List.getD_cons_succ, getD_replicate_zero]
      rw [hx]
      by_cases hnd : n < d
      · have : ¬ d ∣ n := fun hdvd => absurd (Nat.le_of_dvd hpos hdvd) (not_le.mpr hnd)
        simp [hnd, this]
      · have hdn : d ≤ n := not_lt.mp hnd
        rw [if_neg hnd, ih (n - d) (by omega) (by omega)]
        by_cases hdvd : d ∣ n
        · have hdvd' : d ∣ n - d := Nat.dvd_sub' hdvd dvd_rfl
          rw [if_pos hdvd', if_pos hdvd,
            Nat.div_eq_sub_div (by omega) hdn, pow_succ]
          ring
        · have hnot : ¬ d ∣ n - d := fun hc => hdvd (by
            have hadd := Nat.dvd_add hc (dvd_refl d)
            rwa [Nat.sub_add_cancel hdn] at hadd)
          rw [if_neg hnot, if_neg hdvd]
          ring

/-- C4 (amended): for a unit impulse into a Delay filter of length `d ≥ 1`
and decay `g`, the output at index `n` is `g^(n/d)` when `d ∣ n` — in
particular `1` at index `0` (the dry impulse is passed through), `g` at `d`,
`g²` at `2d` — and `0` elsewhere; the concrete five-pull scenario produces
`[1, 0, 0, 1/2, 0]`. -/
theorem delay_impulse_geometric (d m n : ℕ) (g : ℚ) (hd : 1 ≤ d) (hn : n ≤ m) :
    (delayRun g (List.replicate d 0) (1 :: List.replicate m 0)).getD n 0 =
      (if d ∣ n then g ^ (n / d) else 0) ∧
    endToEnd 5 [1,0,0,0,0] 3 (1/2) 5 = .ok [1, 0, 0, 1/2, 0] :=
  ⟨delayRun_impulse d m g hd n hn, by
    norm_num [endToEnd, inputDataFn, tryPush, tryPop, outputDataFn,
      DelayFilter.new, DelayFilter.filter, List.replicate_succ]⟩

/-- Witness for `delay_impulse_geometric`: `d = 3`, `g = 1/2`, impulse of
length `5`, output index `3` — the echo `g¹ = 1/2`. -/
theorem delay_impulse_geometric_witness :
    ((delayRun (1/2) (List.replicate 3 0) (1 :: List.replicate 4 0)).getD 3 0 =
      (if 3 ∣ 3 then (1/2 : ℚ) ^ (3 / 3) else 0)) ∧
    endToEnd 5 [1,0,0,0,0] 3 (1/2) 5 = .ok [1, 0, 0, 1/2, 0] :=
  delay_impulse_geometric 3 4 3 (1/2) (by norm_num) (by norm_num)

/-! ### C10: every playback sample of the configured program is bounded by
the saturation -/

theorem outputDataFn_mem {σ : Type} (step : σ → ℚ → Except String (σ × ℚ))
    (Q : σ → Prop) (P : ℚ → Prop) (h0 : P 0)
    (hstep : ∀ st s st' y, Q st → step st s = .ok (st', y) → Q st' ∧ P y) :
    ∀ (k : ℕ) (st : σ) (q : List ℚ) (r : σ × List ℚ × List ℚ),
      Q st → outputDataFn step k st q = .ok r → ∀ y ∈ r.2.2, P y := by
  intro k
  induction k with
  | zero =>
    intro st q r _ hr y hy
    simp only [outputDataFn, Except.ok.injEq] at hr
    rw [← hr] at hy
    simp at hy
  | succ k ih =>
    intro st q r hQ hr y hy
    cases hq : tryPop q with
    | none =>
      cases hrec : outputDataFn step k st q with
      | error e => simp only [outputDataFn, hq, hrec] at hr; cases hr
      | ok r' =>
        simp only [outputDataFn, hq, hrec, Except.ok.injEq] at hr
        rw [← hr] at hy
        simp only [List.mem_cons] at hy
        rcases hy with rfl | hy
        · exact h0
        · exact ih st q r' hQ hrec y hy
    | some p =>
      obtain ⟨s, rest⟩ := p
      cases hstep' : step st s with
      | error e => simp only [outputDataFn, hq, hstep'] at hr; cases hr
      | ok p' =>
        obtain ⟨st', y'⟩ := p'
        obtain ⟨hQ', hP'⟩ := hstep st s st' y' hQ hstep'
        cases hrec : outputDataFn step k st' rest with
        | error e => simp only [outputDataFn, hq, hstep', hrec] at hr; cases hr
        | ok r' =>
          simp only [outputDataFn, hq, hstep', hrec, Except.ok.injEq] at hr
          rw [← hr] at hy
          simp only [List.mem_cons] at hy
          rcases hy with rfl | hy
          · exact hP'
          · exact ih st' rest r' hQ' hrec y hy

/-- C10: in the program as configured in `main` — the active filter is
`DistortFilter::new(12.0, 0.7)` — every sample the playback callback writes
has magnitude at most `0.7`: underrun slots are written as exactly `0`, and
every filtered sample is clamped into `[-0.7, 0.7]`. -/
theorem main_output_bounded (k : ℕ) (q : List ℚ) (f' : DistortFilter)
    (q' out : List ℚ) (y : ℚ)
    (hrun : outputDataFn distortStep k (DistortFilter.new 12 (7/10)) q =
      .ok (f', q', out))
    (hy : y ∈ out) : |y| ≤ 7/10 := by
  refine outputDataFn_mem distortStep
    (fun st => st = DistortFilter.new 12 (7/10)) (fun y => |y| ≤ 7/10)
    (by norm_num) ?_ k (DistortFilter.new 12 (7/10)) q (f', q', out) rfl hrun y hy
  intro st s st' z hQ hstep
  subst hQ
  have : distortStep (DistortFilter.new 12 (7/10)) s =
      .ok (DistortFilter.new 12 (7/10),
        if s * 12 < -(7/10) then -(7/10) else if s * 12 > 7/10 then 7/10 else s * 12) := by
    simp [distortStep, DistortFilter.filter, DistortFilter.new, f32Clamp,
      show -(7/10 : ℚ) ≤ 7/10 by norm_num]
  rw [this] at hstep
  simp only [Except.ok.injEq, Prod.mk.injEq] at hstep
  obtain ⟨hst, hz⟩ := hstep
  refine ⟨hst.symm, ?_⟩
  show |z| ≤ 7/10
  rw [← hz, abs_le]
  by_cases h1 : s * 12 < -(7/10)
  · rw [if_pos h1]
    constructor <;> norm_num
  · rw [if_neg h1]
    by_cases h2 : s * 12 > 7/10
    · rw [if_pos h2]
      constructor <;> norm_num
    · rw [if_neg h2]
      exact ⟨not_lt.mp h1, not_lt.mp h2⟩

/-- Witness for `main_output_bounded`: one requested slot, one captured
sample `1`; the written sample is the clamped `7/10`. -/
theorem main_output_bounded_witness : |(7:ℚ)/10| ≤ 7/10 :=
  main_output_bounded 1 [1] (DistortFilter.new 12 (7/10)) [] [7/10] (7/10)
    (by norm_num [outputDataFn, tryPop, distortStep, DistortFilter.filter,
      DistortFilter.new, f32Clamp])
    (by norm_num)

/-! ### Flange offset: bounds and concrete values -/

theorem flange_offset_ge_one (A c t : ℝ) (hA : 0 ≤ A) :
    1 ≤ FlangeFilter.offset A c t := by
  have hcos : -1 ≤ Real.cos (t * c) := Real.neg_one_le_cos (t * c)
  have hmul : 0 ≤ (Real.cos (t * c) + 1) * A :=
    mul_nonneg (by linarith) hA
  have hfl : (1:ℤ) ≤ ⌊(Real.cos (t * c) + 1) * A + 1⌋ := by
    rw [Int.le_floor]
    push_cast
    linarith
  unfold FlangeFilter.offset
  omega

theorem flange_offset_le (A c t : ℝ) (hA : 0 ≤ A) (B : ℕ) (hB : 2 * A + 1 ≤ (B:ℝ)) :
    FlangeFilter.offset A c t ≤ B := by
  have hcos : Real.cos (t * c) ≤ 1 := Real.cos_le_one (t * c)
  have hmul : (Real.cos (t * c) + 1) * A ≤ 2 * A :=
    mul_le_mul_of_nonneg_right (by linarith) hA
  have hfl : ⌊(Real.cos (t * c) + 1) * A + 1⌋ ≤ (B:ℤ) := by
    have := Int.floor_le_floor (by linarith : (Real.cos (t * c) + 1) * A + 1 ≤ (B:ℝ))
    rwa [Int.floor_natCast] at this
  unfold FlangeFilter.offset
  exact Int.toNat_le.mpr hfl

theorem flange_offset_lt (A c t : ℝ) (hA : 0 ≤ A) (B : ℕ) (hB : 2 * A + 1 < (B:ℝ)) :
    FlangeFilter.offset A c t < B := by
  have hcos : Real.cos (t * c) ≤ 1 := Real.cos_le_one (t * c)
  have hmul : (Real.cos (t * c) + 1) * A ≤ 2 * A :=
    mul_le_mul_of_nonneg_right (by linarith) hA
  have hfl : ⌊(Real.cos (t * c) + 1) * A + 1⌋ < (B:ℤ) := by
    rw [Int.floor_lt]
    push_cast
    linarith
  have hBpos : 0 < B := by
    have hB0 : (0:ℝ) < (B:ℝ) := by nlinarith
    exact_mod_cast hB0
  unfold FlangeFilter.offset
  exact (Int.toNat_lt' (by omega)).mpr hfl

theorem flange_offset_at_zero (c : ℝ) : FlangeFilter.offset 100 c 0 = 201 := by
  unfold FlangeFilter.offset
  rw [zero_mul, Real.cos_zero]
  norm_num
  rfl

/-! ### C3: the reverse offset is not clamped to the buffer length -/

/-- C3 counterexample: with buffer length `D = 1`, LFO amplitude `100`,
coefficient `1` and `t = 0` (a legal `FlangeFilter::new(1, sr, f, 100.0, g)`
configuration), the reverse offset is `201`, which is not in `[0, 1)`, and
`read_buffer` at that offset underflows the `usize` subtraction
`buffer.len() - reverse_offset` — a panic, not a clamped in-range read. -/
theorem flange_unclamped_read_panics :
    FlangeFilter.offset 100 1 0 = 201 ∧
    ¬ FlangeFilter.offset 100 1 0 < (List.replicate 1 (0:ℝ)).length ∧
    FlangeFilter.read_buffer (List.replicate 1 0) 0 (FlangeFilter.offset 100 1 0) =
      .error "attempt to subtract with overflow" := by
  have h := flange_offset_at_zero 1
  refine ⟨h, ?_, ?_⟩
  · rw [h]
    simp
  · rw [h]
    norm_num [FlangeFilter.read_buffer, List.length_replicate]

/-- C3 (amended): the reverse offset is bounded — for any nonnegative LFO
amplitude `A` it lies in `[1, 2A+1]` — but it is never clamped to the buffer
length; every read stays in bounds only for configurations whose buffer is
long enough (`2A + 1 < D`), the read cursor being inside the buffer as
`write_buffer` maintains it. -/
theorem flange_read_in_bounds (A c t : ℝ) (buf : List ℝ) (ro : ℕ)
    (hA : 0 ≤ A) (hro : ro < buf.length) (hD : 2 * A + 1 < (buf.length : ℝ)) :
    1 ≤ FlangeFilter.offset A c t ∧
    FlangeFilter.offset A c t < buf.length ∧
    ∃ v, FlangeFilter.read_buffer buf ro (FlangeFilter.offset A c t) = .ok v := by
  have h1 := flange_offset_ge_one A c t hA
  have hlt := flange_offset_lt A c t hA buf.length hD
  refine ⟨h1, hlt, ?_⟩
  by_cases hcase : FlangeFilter.offset A c t ≤ ro
  · unfold FlangeFilter.read_buffer
    rw [if_pos hcase]
    exact listIndex_ok buf _ (by omega)
  · unfold FlangeFilter.read_buffer
    rw [if_neg hcase, if_pos (by omega : FlangeFilter.offset A c t ≤ buf.length)]
    exact listIndex_ok buf _ (by omega)

/-- Witness for `flange_read_in_bounds`: amplitude `100`, buffer of length
`202 > 2·100 + 1`, cursor at `0`, `t = 0`. -/
theorem flange_read_in_bounds_witness :
    1 ≤ FlangeFilter.offset 100 1 0 ∧
    FlangeFilter.offset 100 1 0 < (List.replicate 202 (0:ℝ)).length ∧
    ∃ v, FlangeFilter.read_buffer (List.replicate 202 0) 0
      (FlangeFilter.offset 100 1 0) = .ok v :=
  flange_read_in_bounds 100 1 0 (List.replicate 202 0) 0 (by norm_num)
    (by norm_num [List.length_replicate]) (by norm_num [List.length_replicate])

/-! ### C6: the flange offset law — extremes fall at half/full cycle, not
quarter/half -/

theorem flange_offset_periodic (A c t : ℝ) (hc : c ≠ 0) :
    FlangeFilter.offset A c (t + 2 * Real.pi / c) = FlangeFilter.offset A c t := by
  have harg : (t + 2 * Real.pi / c) * c = t * c + 2 * Real.pi := by
    rw [add_mul, div_mul_cancel₀ _ hc]
  unfold FlangeFilter.offset
  rw [harg, Real.cos_add_two_pi]

/-- C6 counterexample: with amplitude `100`, coefficient `1` (so `t·c`
sweeps one cosine period, `2π`, per LFO cycle), the offset at the
half-cycle `t = π` is `1`, not the claimed `201`, and at the quarter-cycle
`t = π/2` it is `101`, not approximately `1`. -/
theorem flange_offset_law_cex :
    FlangeFilter.offset 100 1 Real.pi = 1 ∧
    FlangeFilter.offset 100 1 Real.pi ≠ 201 ∧
    FlangeFilter.offset 100 1 (Real.pi / 2) = 101 ∧
    FlangeFilter.offset 100 1 (Real.pi / 2) ≠ 1 := by
  have hhalf : FlangeFilter.offset 100 1 Real.pi = 1 := by
    unfold FlangeFilter.offset
    rw [mul_one, Real.cos_pi]
    norm_num
  have hquarter : FlangeFilter.offset 100 1 (Real.pi / 2) = 101 := by
    unfold FlangeFilter.offset
    rw [mul_one, Real.cos_pi_div_two]
    norm_num
    rfl
  exact ⟨hhalf, by rw [hhalf]; norm_num, hquarter, by rw [hquarter]; norm_num⟩

/-- C6 (amended): with amplitude `A = 100` and base lag `1`, the offset is
`201` at `t = 0`, `1` at the half-cycle, `201` again at the full cycle,
always bounded within `[1, 2A + 1] = [1, 201]`, and periodic with the LFO
period `2π/c`. -/
theorem flange_offset_law (c t : ℝ) (hc : c ≠ 0) :
    FlangeFilter.offset 100 c 0 = 201 ∧
    FlangeFilter.offset 100 1 Real.pi = 1 ∧
    FlangeFilter.offset 100 1 (2 * Real.pi) = 201 ∧
    1 ≤ FlangeFilter.offset 100 c t ∧
    FlangeFilter.offset 100 c t ≤ 201 ∧
    FlangeFilter.offset 100 c (t + 2 * Real.pi / c) = FlangeFilter.offset 100 c t := by
  have hhalf : FlangeFilter.offset 100 1 Real.pi = 1 := by
    unfold FlangeFilter.offset
    rw [mul_one, Real.cos_pi]
    norm_num
  have hfull : FlangeFilter.offset 100 1 (2 * Real.pi) = 201 := by
    unfold FlangeFilter.offset
    rw [mul_one, Real.cos_two_pi]
    norm_num
    rfl
  exact ⟨flange_offset_at_zero c, hhalf, hfull,
    flange_offset_ge_one 100 c t (by norm_num),
    flange_offset_le 100 c t (by norm_num) 201 (by norm_num),
    flange_offset_periodic 100 c t hc⟩

/-- Witness for `flange_offset_law` at `c = 1`, `t = 0`. -/
theorem flange_offset_law_witness :
    FlangeFilter.offset 100 1 0 = 201 ∧
    FlangeFilter.offset 100 1 Real.pi = 1 ∧
    FlangeFilter.offset 100 1 (2 * Real.pi) = 201 ∧
    1 ≤ FlangeFilter.offset 100 1 0 ∧
    FlangeFilter.offset 100 1 0 ≤ 201 ∧
    FlangeFilter.offset 100 1 (0 + 2 * Real.pi / 1) = FlangeFilter.offset 100 1 0 :=
  flange_offset_law 1 0 one_ne_zero
